import Mathlib

/-!
Verification development for the smart-farm robot controller.

The Python source is shallowly embedded: each definition below mirrors one
function of the repository (module and function named in its doc comment).
Dictionaries become association lists, `None` becomes `Option.none`,
machine timestamps become integer microseconds, and the two `while` loops
of the source (`bfs` and the daily split) are written with an explicit fuel
argument that the callers instantiate with a provably sufficient bound, so
that every definition evaluates by kernel reduction.
-/

namespace SmartFarm

/-- One node record of the per-map node table seeded by
`app/util/redis/init_data.py`: the four directional neighbour labels
(`0` means "no neighbour") and the occupying robot (`None` when free). -/
structure NodeData where
  l : Nat
  r : Nat
  u : Nat
  d : Nat
  occupied : Option String
deriving DecidableEq, Repr

/-- The node table of one map (`get_all_nodes`): an association list from
node id to `NodeData`, standing for the Python `dict[int, dict]`. -/
abbrev Graph := List (Nat × NodeData)

/-- Dictionary lookup `nodes.get(node_id)`. -/
def lookupNode (g : Graph) (n : Nat) : Option NodeData :=
  (g.find? (fun p => p.1 == n)).map Prod.snd

/-- Membership test `node_id in nodes`. -/
def isKey (g : Graph) (n : Nat) : Bool :=
  (lookupNode g n).isSome

/-! ### BFS (`app/domain/path/service.py`, `bfs`) -/

/-- A queue entry of the source's BFS: `(current node, path, directions)`. -/
abbrev QEntry := Nat × List Nat × List String

/-- The fixed neighbour visit order `[("l", node["l"]), ("r", node["r"]),
("u", node["u"]), ("d", node["d"])]` of the source's BFS loop body. -/
def neighborsOf (nd : NodeData) : List (String × Nat) :=
  [("l", nd.l), ("r", nd.r), ("u", nd.u), ("d", nd.d)]

/-- One conditional enqueue of the BFS inner `for` loop: a neighbour is
pushed iff it is non-zero, unvisited and a key of the node table; pushing
also marks it visited. -/
def pushNbr (g : Graph) (path : List Nat) (dirs : List String)
    (qv : List QEntry × List Nat) (dn : String × Nat) : List QEntry × List Nat :=
  if dn.2 ≠ 0 ∧ dn.2 ∉ qv.2 ∧ isKey g dn.2 then
    (qv.1 ++ [(dn.2, path ++ [dn.2], dirs ++ [dn.1])], dn.2 :: qv.2)
  else qv

/-- The BFS `while queue:` loop, with an explicit fuel argument.  `none` is
returned only when the fuel runs out; `bfs` below passes a bound larger
than the loop's termination measure, and `bfsLoopF_some` proves that bound
sufficient, so the `none` case is dead code.  The `lookupNode = none` case
mirrors the source's `nodes[current]`, which can never fail because only
keys are ever enqueued. -/
def bfsLoopF (g : Graph) (endN : Nat) :
    Nat → List QEntry → List Nat → Option (List Nat × List String)
  | 0, _, _ => none
  | _ + 1, [], _ => some ([], [])
  | fuel + 1, (cur, path, dirs) :: rest, visited =>
    if cur = endN then some (path, dirs)
    else
      match lookupNode g cur with
      | none => some ([], [])
      | some nd =>
        let qv := (neighborsOf nd).foldl (pushNbr g path dirs) (rest, visited)
        bfsLoopF g endN fuel qv.1 qv.2

/-- `bfs(map_name, start, end)`: breadth-first shortest path over the node
table, visiting neighbours in the fixed order `l, r, u, d` and skipping
`0` labels; returns `([], [])` when the table is empty or an endpoint is
unknown. -/
def bfs (g : Graph) (start endN : Nat) : List Nat × List String :=
  if g.isEmpty then ([], [])
  else if isKey g start && isKey g endN then
    (bfsLoopF g endN (4 * g.length + 2) [(start, [start], [])] [start]).getD ([], [])
  else ([], [])

/-! ### Occupancy truncation (`app/domain/path/service.py`, `cut_path`) -/

/-- The per-index blocking test of `cut_path`: index `i` blocks when its
node is absent from the table (`if not node_data`) or occupied by a robot
other than `robot_id` (`occupied_by is not None and occupied_by != robot_id`). -/
def blockedAt (g : Graph) (robot : String) (n : Nat) : Bool :=
  match lookupNode g n with
  | none => true
  | some nd =>
    match nd.occupied with
    | none => false
    | some occ => occ ≠ robot

/-- The `for i in range(1, len(path))` scan of `cut_path`, started at the
suffix `path[1:]` with running index `i`; returns the first blocking index. -/
def cutIndexAux (g : Graph) (robot : String) : List Nat → Nat → Option Nat
  | [], _ => none
  | n :: rest, i =>
    if blockedAt g robot n then some i else cutIndexAux g robot rest (i + 1)

/-- `cut_path(map_name, path, directions, robot_id)`: truncate the path at
the first blocked index (default cut index `len(path)`). -/
def cut_path (g : Graph) (path : List Nat) (dirs : List String) (robot : String) :
    List Nat × List String :=
  if path = [] then ([], [])
  else
    let ci := (cutIndexAux g robot (path.drop 1) 1).getD path.length
    (path.take ci, dirs.take ci)

/-! ### Path encoding (`app/domain/path/service.py`, `format_path`) -/

/-- `format_path(end, start, path, directions)`: the `"{end}!{start},{directions[0]}/"`
prefix followed by `"{path[i]},{directions[i]}/"` for `i in range(1, len(path) - 1)`
— the last path element is never emitted.  In the source `directions[0]`
raises on an empty list; callers guarantee `len(path) >= 2`, and the
`getD` defaults below are only reachable outside that guarantee. -/
def format_path (endN start : Nat) (path : List Nat) (dirs : List String) : String :=
  (List.range' 1 (path.length - 1 - 1)).foldl
    (fun acc i =>
      let node := path.getD i 0
      let dir := dirs.getD i ""
      acc ++ s!"{node},{dir}/")
    (let d0 := dirs.getD 0 ""
     s!"{endN}!{start},{d0}/")

/-! ### Battery conversion (`app/util/mqtt/handlers/command.py`,
`CommandHandler._calculate_battery_percent`) -/

/-- Python's built-in `round` on the embedded exact value: round half to
even (banker's rounding). -/
def roundHalfEven (q : ℚ) : ℤ :=
  let f := ⌊q⌋
  let r := q - (f : ℚ)
  if r < 1/2 then f
  else if (1 : ℚ)/2 < r then f + 1
  else if f % 2 = 0 then f else f + 1

/-- The body items of a `format_path` result as the specification
describes them: one `"{node},{dir}/"` segment for every index
`0 ≤ i ≤ len(nodes) - 2`, the final node never among them. -/
def pathBody (nodes : List Nat) (dirs : List String) : String :=
  String.join ((List.range (nodes.length - 1)).map (fun i =>
    let node := nodes.getD i 0
    let dir := dirs.getD i ""
    s!"{node},{dir}/"))

/-- `_calculate_battery_percent(input_volt, charging_state)` with the float
arithmetic idealised over `ℚ` (the flow and all branch outcomes agree with
the IEEE-double evaluation at the inputs the claims exercise). -/
def calculate_battery_percent (input_volt : ℚ) (charging_state : ℤ) : ℤ :=
  let max_volt : ℚ := 33/2
  let min_volt : ℚ := 27/2
  let charging_c : ℚ := (max_volt - input_volt) * (7/100)
  let v : ℚ := if charging_state = 1 then input_volt - charging_c else input_volt
  let battery_percent := roundHalfEven ((v - min_volt) / (max_volt - min_volt) * 100)
  max 0 (min 100 battery_percent)

/-! ### Node-reference strings -/

/-- Python's `int` on a plain decimal digit string (the only number
strings the system ever writes; Python also accepts signs and blanks,
which never occur here). -/
def digitsVal? (cs : List Char) : Option Nat :=
  if cs ≠ [] ∧ cs.all Char.isDigit then
    some (cs.foldl (fun a c => a * 10 + (c.toNat - 48)) 0)
  else none

/-- Python's `str.split("-")` on the character list. -/
def splitDash : List Char → List (List Char)
  | [] => [[]]
  | c :: rest =>
    match splitDash rest with
    | [] => [[c]]
    | h :: t => if c = '-' then [] :: h :: t else (c :: h) :: t

/-- `CommandHandler._parse_node`: `"2-1"` parses to `(2, some 1)`, `"2"`
to `(2, none)`.  Python's `int` raises on non-numeric text; the `getD 0`
defaults are only reachable outside the `validNodeStr` inputs the theorems
assume. -/
def parseNode (s : String) : Nat × Option Nat :=
  match splitDash s.data with
  | [a] => ((digitsVal? a).getD 0, none)
  | a :: b :: _ => ((digitsVal? a).getD 0, some ((digitsVal? b).getD 0))
  | [] => (0, none)

/-- The strings Python's `int`-based node parsing accepts without raising:
a decimal node id, optionally followed by `-` and a decimal sub-position. -/
def validNodeStr (s : String) : Bool :=
  match splitDash s.data with
  | [a] => (digitsVal? a).isSome
  | [a, b] => (digitsVal? a).isSome && (digitsVal? b).isSome
  | _ => false

/-- Node parsing as used by `RobotStateService._calculate_node_movement`
and `RedisCommandHandler._calculate_next_position`: a bare node id means
sub-position `0`. -/
def parseNodeSub (s : String) : Nat × Nat :=
  let p := parseNode s
  (p.1, p.2.getD 0)

/-! ### Shortest-distance specification for the BFS -/

/-- The successor nodes the BFS enqueue guard admits from `a`: the four
neighbour labels, skipping `0` and ids missing from the table. -/
def succs (g : Graph) (a : Nat) : List Nat :=
  match lookupNode g a with
  | none => []
  | some nd => [nd.l, nd.r, nd.u, nd.d].filter (fun b => decide (b ≠ 0) && isKey g b)

/-- The nodes reachable from `a` in at most `n` steps of the 4-neighbour
edge relation. -/
def reachN (g : Graph) (a : Nat) : Nat → List Nat
  | 0 => [a]
  | n + 1 => reachN g a n ++ (reachN g a n).flatMap (succs g)

/-- A route from `a` to `b` exists. -/
def Reaches (g : Graph) (a b : Nat) : Prop :=
  ∃ n, b ∈ reachN g a n

/-- `n` is the shortest 4-neighbour distance from `a` to `b`. -/
def IsDist (g : Graph) (a b : Nat) (n : Nat) : Prop :=
  b ∈ reachN g a n ∧ ∀ m < n, b ∉ reachN g a m

/-- The number of table keys not yet visited — the decreasing part of the
BFS termination measure. -/
def unvis (g : Graph) (V : List Nat) : Nat :=
  ((g.map Prod.fst).dedup.filter (fun x => decide (x ∉ V))).length

/-- The loop invariant of the source's BFS: every visited node is a key;
every queue entry carries a shortest path to its node (length = distance
+ 1); queue path lengths are sorted and spread over at most two values;
every visited node either still waits in the queue or has all its
successors visited; the end node, once visited, is still queued (it is
returned at dequeue time); queued nodes are pairwise distinct. -/
structure BfsInv (g : Graph) (s endN : Nat) (Q : List QEntry) (V : List Nat) : Prop where
  startMem : s ∈ V
  keysV : ∀ v ∈ V, isKey g v = true
  entKey : ∀ e ∈ Q, isKey g e.1 = true
  entMem : ∀ e ∈ Q, e.1 ∈ V
  entDist : ∀ e ∈ Q, IsDist g s e.1 (e.2.1.length - 1) ∧ 1 ≤ e.2.1.length
  sorted : Q.Pairwise (fun e e' => e.2.1.length ≤ e'.2.1.length)
  twoLevel : ∀ e ∈ Q, ∀ e' ∈ Q, e'.2.1.length ≤ e.2.1.length + 1
  frontier : ∀ v ∈ V, (∃ e ∈ Q, e.1 = v) ∨ (∀ b ∈ succs g v, b ∈ V)
  endQ : endN ∈ V → ∃ e ∈ Q, e.1 = endN
  nodupQ : (Q.map (fun e => e.1)).Nodup

/-- The invariant while the dequeued node `cur` (entry path length `P`)
is having its neighbours folded in: `cur` has left the queue but its
successors are only partially enqueued, every remaining or new entry has
path length in `[P, P + 1]`, and `cur` is excused from the frontier
condition. -/
structure MidInv (g : Graph) (s endN cur : Nat) (P : Nat)
    (Q : List QEntry) (V : List Nat) : Prop where
  startMem : s ∈ V
  keysV : ∀ v ∈ V, isKey g v = true
  entKey : ∀ e ∈ Q, isKey g e.1 = true
  entMem : ∀ e ∈ Q, e.1 ∈ V
  entDist : ∀ e ∈ Q, IsDist g s e.1 (e.2.1.length - 1) ∧ 1 ≤ e.2.1.length
  sorted : Q.Pairwise (fun e e' => e.2.1.length ≤ e'.2.1.length)
  bounds : ∀ e ∈ Q, P ≤ e.2.1.length ∧ e.2.1.length ≤ P + 1
  frontier : ∀ v ∈ V, (∃ e ∈ Q, e.1 = v) ∨ (∀ b ∈ succs g v, b ∈ V) ∨ v = cur
  endQ : endN ∈ V → ∃ e ∈ Q, e.1 = endN
  nodupQ : (Q.map (fun e => e.1)).Nodup
  curV : cur ∈ V

/-! ### Seeded map (`app/util/redis/init_data.py`, `init_node_data`) -/

/-- The seeded node record for id `n` (1 ≤ n ≤ 60): a free line with the
positions of nodes 1 and 2 swapped at the right end. -/
def initNode (n : Nat) : NodeData :=
  if n = 1 then ⟨3, 2, 0, 0, none⟩
  else if n = 2 then ⟨1, 0, 0, 0, none⟩
  else if n = 3 then ⟨4, 1, 0, 0, none⟩
  else ⟨if n < 60 then n + 1 else 0, n - 1, 0, 0, none⟩

/-- The full seeded table: nodes `1..60`, all free. -/
def initNodes : Graph :=
  (List.range' 1 60).map (fun n => (n, initNode n))

/-- A three-node line with node 3 occupied by robot `r2`; used to witness
the truncation theorem. -/
def lineWithBlock : Graph :=
  [(1, ⟨2, 0, 0, 0, none⟩), (2, ⟨3, 0, 0, 0, none⟩), (3, ⟨0, 0, 0, 0, some "r2"⟩)]

/-! ### Robot record (`app/domain/robot/robot_state_service.py`) -/

/-- The Redis hash `robot:state:{map}:{robot}` as the state service writes
it.  Node references stay strings exactly as stored (`get_robot_state`
converts bare ids to `int`, but every comparison the claims touch — against
the sub-position string `"1-0"` — gives the same verdict on the stored
string).  `battery_state`/`charging_state` hold the integers whose decimal
rendering the service writes; `updated_at` holds the microsecond timestamp
rendered by `datetime.now().isoformat()`. -/
structure RobotHash where
  map_name : Option String := none
  track_no : Option String := none
  robot_id : Option String := none
  current_node : Option String := none
  final_node : Option String := none
  battery_state : Option Int := none
  charging_state : Option Int := none
  status : Option String := none
  updated_at : Option Int := none
deriving DecidableEq, Repr

/-- The hash with no fields: `get_robot_state` returns `None` exactly when
`HGETALL` comes back empty. -/
def RobotHash.isEmpty (r : RobotHash) : Bool :=
  decide (r = {})

/-- Well-formed stored node references: Python's `int`-based parsing in
`_calculate_node_movement` raises on anything else. -/
def RobotHash.wf (r : RobotHash) : Bool :=
  (match r.current_node with | some s => validNodeStr s | none => true) &&
  (match r.final_node with | some s => validNodeStr s | none => true)

/-- The hash `robot:current_state:{map}:{robot}`: the open stats interval
(`state`, `started_at` in microseconds) and the cumulative `node_count`. -/
structure CursorHash where
  state : Option String := none
  started_at : Option Int := none
  node_count : Option Int := none
deriving DecidableEq, Repr

/-- The store and bus state one `(map, robot)` pair touches: its node
table, robot hash, stats cursor, per-day stats buckets (microseconds per
`(epoch-day, operation-state)`), the arrive marker with its TTL, and the
two outbound publish streams (MQTT topics with payload strings; the Redis
state channel with the structured snapshot whose JSON field order Redis
does not fix). -/
structure World where
  graph : Graph
  robot : RobotHash
  cursor : CursorHash
  stats : Int → String → Int
  arriveVal : Option String
  arriveTTL : Option Nat
  mqttPub : List (String × String)
  statePub : List (String × RobotHash)

/-- An empty world, for witnesses. -/
def World.init : World :=
  ⟨[], {}, {}, fun _ _ => 0, none, none, [], []⟩

/-- A world whose robot sits away from the charging node, for witnesses. -/
def awayWorld : World :=
  { World.init with robot := { current_node := some "5", status := some "WORKING" } }

/-- A world whose robot sits at sub-position `"5-2"` on the three-node
line, for witnesses. -/
def midSubWorld : World :=
  { World.init with
      graph := lineWithBlock, robot := { current_node := some "5-2" } }

/-! ### Daily stats (`app/domain/robot/daily_stats_service.py`) -/

/-- Microseconds per calendar day. -/
def dayUs : Int := 86400000000

/-- `timestamp.date()` as an epoch-day index. -/
def dateOf (t : Int) : Int := Int.fdiv t dayUs

/-- `datetime.combine(current_date, datetime.min.time())`: midnight. -/
def startOfDay (d : Int) : Int := d * dayUs

/-- `datetime.combine(current_date, datetime.max.time())`: the source's
"end of day" `23:59:59.999999` — one microsecond before midnight. -/
def endOfDay (d : Int) : Int := d * dayUs + (dayUs - 1)

/-- The `while current_date <= end_date:` loop of
`DailyStatsService._split_and_add_duration`, yielding the `(date,
duration in µs)` pairs it accumulates.  Fuel-structural; `splitSegments`
passes one more than the exact iteration count, so exhaustion is
unreachable. -/
def splitLoop (ended endDate : Int) : Nat → Int → Int → List (Int × Int)
  | 0, _, _ => []
  | fuel + 1, curDate, curTime =>
    if curDate ≤ endDate then
      (curDate, (if curDate = endDate then ended else endOfDay curDate) - curTime)
        :: splitLoop ended endDate fuel (curDate + 1) (startOfDay (curDate + 1))
    else []

/-- `_split_and_add_duration`'s date/duration decomposition: one segment
on a same-day interval, otherwise the midnight-splitting loop. -/
def splitSegments (started ended : Int) : List (Int × Int) :=
  if dateOf started = dateOf ended then [(dateOf started, ended - started)]
  else
    splitLoop ended (dateOf ended) ((dateOf ended - dateOf started).toNat + 1)
      (dateOf started) started

/-- The intermediate whole days of a multi-day split as the amended claim
describes them: `k` consecutive dates starting at `d`, each credited one
microsecond less than a full day. -/
def middleDays (d : Int) (k : Nat) : List (Int × Int) :=
  (List.range k).map (fun i : Nat => (d + (i : Int), dayUs - 1))

/-- `DailyStatsService._add_duration`: accumulate `dur` microseconds into
the bucket of `(date, field)`. -/
def add_duration (w : World) (field : String) (dur : Int) (date : Int) : World :=
  { w with stats := fun d f =>
      if d = date ∧ f = field then w.stats d f + dur else w.stats d f }

/-- `DailyStatsService._split_and_add_duration`. -/
def split_and_add_duration (w : World) (field : String) (started ended : Int) : World :=
  (splitSegments started ended).foldl (fun w' seg => add_duration w' field seg.2 seg.1) w

/-- `DailyStatsService.start_state`: close the open interval (when the
cursor holds both `state` and `started_at`) into the day buckets, then
open the new one. -/
def start_state (w : World) (field : String) (now : Int) : World :=
  let w1 :=
    match w.cursor.state, w.cursor.started_at with
    | some old, some t0 => split_and_add_duration w old t0 now
    | _, _ => w
  { w1 with cursor := { w1.cursor with state := some field, started_at := some now } }

/-- `RobotOperationState.from_robot_status`, composed with the
`RobotStatus(...)` enum lookup: `none` for `ERROR` (for strings outside
the enum Python's lookup raises instead; the service only ever stores
enum values, so that path is unreachable). -/
def operationStateOf (status : String) (battery : Int) : Option String :=
  if status = "WORKING" ∨ status = "RETURN" then some "working"
  else if status = "CHARGING" then some "charging"
  else if status = "WAITING" ∨ status = "DONE" then
    some (if battery ≥ 100 then "full_charge_idle" else "idle")
  else none

/-- `RobotStateService._update_operation_state`: map the stored status to
an operation state and restart the stats interval when it changed. -/
def update_operation_state (w : World) (now : Int) : World :=
  match w.robot.status with
  | none => w
  | some st =>
    match operationStateOf st (w.robot.battery_state.getD 0) with
    | none => w
    | some op => if w.cursor.state = some op then w else start_state w op now

/-- `RobotStateService._publish_state_change`: emit the current snapshot
on the per-robot state channel (skipped when the hash is empty). -/
def publish_state_change (w : World) (map robot : String) : World :=
  if w.robot.isEmpty then w
  else { w with statePub := w.statePub ++ [(s!"{map}/robot/{robot}/state", w.robot)] }

/-- `RobotStateService._calculate_node_movement`. -/
def calculate_node_movement (p c : String) : Int :=
  let pp := parseNodeSub p
  let cc := parseNodeSub c
  if pp.1 = cc.1 then ((cc.2 : Int) - (pp.2 : Int)).natAbs
  else if pp.2 = 0 ∧ cc.2 = 0 then 5
  else 1

/-- `RobotStateService.update_position`: write identity, `current_node`
and `updated_at`; update `node_count` (movements above 10 are dropped);
store `final_node` when given; derive the status — at `"1-0"` from the
charging flag, elsewhere from the effective final node; then update the
operation stats and publish the snapshot. -/
def update_position
    (w : World) (map robot cn : String) (fn : Option String) (now : Int) : World :=
  let prevNode : Option String := if w.robot.isEmpty then none else w.robot.current_node
  let r1 : RobotHash :=
    { w.robot with
        map_name := some map, track_no := some "1", robot_id := some robot,
        current_node := some cn, updated_at := some now }
  let cursor1 : CursorHash :=
    match prevNode with
    | some pn =>
      if pn ≠ cn then
        let mv := calculate_node_movement pn cn
        if mv > 10 then w.cursor
        else { w.cursor with node_count := some (w.cursor.node_count.getD 0 + mv) }
      else w.cursor
    | none => { w.cursor with node_count := some 0 }
  let r2 : RobotHash :=
    match fn with
    | some f => { r1 with final_node := some f }
    | none => r1
  let newStatus : String :=
    if cn = "1-0" then
      if r2.charging_state.getD 0 = 1 then "CHARGING" else "WAITING"
    else
      let target : Option String :=
        match fn with
        | some f => some f
        | none => r2.final_node
      if target = some "1-0" then "RETURN" else "WORKING"
  let r3 : RobotHash := { r2 with status := some newStatus }
  let w1 : World := { w with robot := r3, cursor := cursor1 }
  publish_state_change (update_operation_state w1 now) map robot

/-- `RobotStateService.update_battery`: write identity, battery, charging
and `updated_at`; while stored at `"1-0"`, recompute the status from the
charging flag; then update the operation stats and publish. -/
def update_battery
    (w : World) (map robot : String) (battery charging : Int) (now : Int) : World :=
  let r1 : RobotHash :=
    { w.robot with
        map_name := some map, track_no := some "1", robot_id := some robot,
        battery_state := some battery, charging_state := some charging,
        updated_at := some now }
  let r2 : RobotHash :=
    if r1.current_node = some "1-0" then
      { r1 with status := some (if charging = 1 then "CHARGING" else "WAITING") }
    else r1
  let w1 : World := { w with robot := r2 }
  publish_state_change (update_operation_state w1 now) map robot

/-- `RobotStateService.update_status`. -/
def update_status
    (w : World) (map robot status : String) (node : Option String) (now : Int) : World :=
  let r1 : RobotHash :=
    { w.robot with
        map_name := some map, track_no := some "1", robot_id := some robot,
        status := some status, updated_at := some now }
  let r2 : RobotHash :=
    match node with
    | some n => { r1 with current_node := some n }
    | none => r1
  let w1 : World := { w with robot := r2 }
  publish_state_change (update_operation_state w1 now) map robot

/-! ### Occupancy release and arrive (`app/util/redis/init_data.py`,
`app/util/mqtt/handlers/command.py`) -/

/-- `release_robot_nodes(map_name, robot_id)`: clear every node the robot
occupies; the count of cleared nodes is the return value. -/
def release_robot_nodes (g : Graph) (robot : String) : Graph × Nat :=
  (g.map (fun p =>
      if p.2.occupied = some robot then (p.1, { p.2 with occupied := none }) else p),
   (g.filter (fun p => p.2.occupied = some robot)).length)

/-- `CommandHandler._handle_arrive`: status `DONE` at the parsed payload
node, arrive marker with a 180 s TTL, release of all of the robot's
nodes, and the `{"yes_or_no": "yes"}` acknowledgement. -/
def handle_arrive (w : World) (map robot payload : String) (now : Int) : World :=
  let nid := (parseNode payload).1
  let w1 := update_status w map robot "DONE" (some (toString nid)) now
  let w2 := { w1 with arriveVal := some (toString nid), arriveTTL := some 180 }
  let w3 := { w2 with graph := (release_robot_nodes w2.graph robot).1 }
  { w3 with mqttPub := w3.mqttPub ++
      [(s!"{map}/{robot}/server/arrive", "\x7b\"yes_or_no\": \"yes\"\x7d")] }

/-! ### Operator-bus next command (`app/util/redis/handlers/command.py`) -/

/-- `RedisCommandHandler._calculate_next_position`: advance one
sub-position in the `l` direction. -/
def calculate_next_position (g : Graph) (current_node : String) : Option String :=
  let p := parseNodeSub current_node
  let node_id := p.1
  let sub := p.2
  if sub = 0 then
    match lookupNode g node_id with
    | none => none
    | some nd => if nd.l = 0 then none else some s!"{node_id}-1"
  else if sub < 4 then
    let s1 := sub + 1
    some s!"{node_id}-{s1}"
  else
    match lookupNode g node_id with
    | none => none
    | some nd =>
      let ln := nd.l
      if ln = 0 then none else some s!"{ln}-0"

/-- `RedisCommandHandler._handle_next_command`: read the stored
`current_node`, compute the next position, and publish it as
`final_node` on the button topic (nothing is published when the robot is
unknown or cannot proceed). -/
def handle_next_command (w : World) (map robot : String) : World :=
  if w.robot.isEmpty ∨ w.robot.current_node = none then w
  else
    match calculate_next_position w.graph (w.robot.current_node.getD "") with
    | none => w
    | some p =>
      { w with mqttPub := w.mqttPub ++
          [(s!"{map}/{robot}/server/button", s!"\x7b\"final_node\": \"{p}\"\x7d")] }

/-! ## General lemmas -/

theorem strAppend_assoc (a b c : String) : a ++ b ++ c = a ++ (b ++ c) :=
  String.ext (by simp [String.data_append])

theorem strAppend_empty (a : String) : a ++ "" = a :=
  String.ext (by simp [String.data_append])

theorem strJoin_cons (a : String) (l : List String) :
    String.join (a :: l) = a ++ String.join l :=
  String.ext (by simp [String.join_eq, String.data_append])

theorem toString_string (s : String) : toString s = s := rfl

theorem strJoin_range_shift (f : Nat → String) (k : Nat) :
    String.join ((List.range (k + 1)).map f)
      = f 0 ++ String.join ((List.range' 1 k).map f) := by
  rw [List.range_eq_range']
  rw [show List.range' 0 (k + 1) = 0 :: List.range' 1 k from by simp [List.range']]
  simp [strJoin_cons]

theorem format_path_foldl (path : List Nat) (dirs : List String) :
    ∀ (l : List Nat) (init : String),
      l.foldl (fun acc i =>
        let node := path.getD i 0
        let dir := dirs.getD i ""
        acc ++ s!"{node},{dir}/") init
      = init ++ String.join (l.map (fun i =>
          let node := path.getD i 0
          let dir := dirs.getD i ""
          s!"{node},{dir}/"))
  | [], init => by
    show init = init ++ String.join []
    rw [show String.join [] = "" from rfl, strAppend_empty]
  | x :: l, init => by
    simp only [List.foldl_cons, List.map_cons, strJoin_cons]
    rw [format_path_foldl path dirs l, strAppend_assoc]

theorem cutIndexAux_eq_none (g : Graph) (robot : String) :
    ∀ (l : List Nat) (k : Nat),
      (∀ j, j < l.length → blockedAt g robot (l.getD j 0) = false) →
      cutIndexAux g robot l k = none
  | [], _, _ => rfl
  | n :: rest, k, h => by
    have h0 : blockedAt g robot n = false := h 0 (by simp)
    unfold cutIndexAux
    rw [h0]
    simp only [Bool.false_eq_true, if_false]
    exact cutIndexAux_eq_none g robot rest (k + 1)
      (fun j hj => h (j + 1) (by simpa using hj))

theorem cutIndexAux_eq_some (g : Graph) (robot : String) :
    ∀ (l : List Nat) (k i : Nat), i < l.length →
      blockedAt g robot (l.getD i 0) = true →
      (∀ j, j < i → blockedAt g robot (l.getD j 0) = false) →
      cutIndexAux g robot l k = some (k + i)
  | [], _, i, hi, _, _ => absurd hi (by simp)
  | n :: rest, k, 0, _, hb, _ => by
    unfold cutIndexAux
    rw [show (n :: rest).getD 0 0 = n from rfl] at hb
    simp [hb]
  | n :: rest, k, i + 1, hi, hb, hmin => by
    have h0 : blockedAt g robot n = false := hmin 0 (Nat.succ_pos i)
    unfold cutIndexAux
    rw [h0]
    simp only [Bool.false_eq_true, if_false]
    have := cutIndexAux_eq_some g robot rest (k + 1) i (by simpa using hi) hb
      (fun j hj => hmin (j + 1) (by simpa using hj))
    rw [this]
    congr 1
    omega

theorem split_foldl_frame (field : String) :
    ∀ (segs : List (Int × Int)) (w : World),
      (segs.foldl (fun w' seg => add_duration w' field seg.2 seg.1) w).robot = w.robot ∧
      (segs.foldl (fun w' seg => add_duration w' field seg.2 seg.1) w).cursor = w.cursor ∧
      (segs.foldl (fun w' seg => add_duration w' field seg.2 seg.1) w).graph = w.graph ∧
      (segs.foldl (fun w' seg => add_duration w' field seg.2 seg.1) w).arriveVal = w.arriveVal ∧
      (segs.foldl (fun w' seg => add_duration w' field seg.2 seg.1) w).arriveTTL = w.arriveTTL ∧
      (segs.foldl (fun w' seg => add_duration w' field seg.2 seg.1) w).mqttPub = w.mqttPub ∧
      (segs.foldl (fun w' seg => add_duration w' field seg.2 seg.1) w).statePub = w.statePub
  | [], _ => ⟨rfl, rfl, rfl, rfl, rfl, rfl, rfl⟩
  | s :: rest, w => split_foldl_frame field rest (add_duration w field s.2 s.1)

theorem start_state_frame (w : World) (field : String) (now : Int) :
    (start_state w field now).robot = w.robot ∧
    (start_state w field now).cursor.node_count = w.cursor.node_count ∧
    (start_state w field now).graph = w.graph ∧
    (start_state w field now).arriveVal = w.arriveVal ∧
    (start_state w field now).arriveTTL = w.arriveTTL ∧
    (start_state w field now).mqttPub = w.mqttPub ∧
    (start_state w field now).statePub = w.statePub := by
  unfold start_state
  split
  · rename_i old t0 h1 h2
    have h := split_foldl_frame old (splitSegments t0 now) w
    exact ⟨h.1,
      show (split_and_add_duration w old t0 now).cursor.node_count = w.cursor.node_count from
        congrArg CursorHash.node_count h.2.1,
      h.2.2.1, h.2.2.2.1, h.2.2.2.2.1, h.2.2.2.2.2.1, h.2.2.2.2.2.2⟩
  · exact ⟨rfl, rfl, rfl, rfl, rfl, rfl, rfl⟩

theorem update_operation_state_frame (w : World) (now : Int) :
    (update_operation_state w now).robot = w.robot ∧
    (update_operation_state w now).cursor.node_count = w.cursor.node_count ∧
    (update_operation_state w now).graph = w.graph ∧
    (update_operation_state w now).arriveVal = w.arriveVal ∧
    (update_operation_state w now).arriveTTL = w.arriveTTL ∧
    (update_operation_state w now).mqttPub = w.mqttPub ∧
    (update_operation_state w now).statePub = w.statePub := by
  unfold update_operation_state
  split
  · exact ⟨rfl, rfl, rfl, rfl, rfl, rfl, rfl⟩
  · split
    · exact ⟨rfl, rfl, rfl, rfl, rfl, rfl, rfl⟩
    · split
      · exact ⟨rfl, rfl, rfl, rfl, rfl, rfl, rfl⟩
      · rename_i st hst op hop hc
        exact start_state_frame w op now

theorem publish_state_change_frame (w : World) (map robot : String) :
    (publish_state_change w map robot).robot = w.robot ∧
    (publish_state_change w map robot).cursor = w.cursor ∧
    (publish_state_change w map robot).graph = w.graph ∧
    (publish_state_change w map robot).arriveVal = w.arriveVal ∧
    (publish_state_change w map robot).arriveTTL = w.arriveTTL ∧
    (publish_state_change w map robot).mqttPub = w.mqttPub ∧
    (publish_state_change w map robot).stats = w.stats := by
  unfold publish_state_change
  split
  · exact ⟨rfl, rfl, rfl, rfl, rfl, rfl, rfl⟩
  · exact ⟨rfl, rfl, rfl, rfl, rfl, rfl, rfl⟩

theorem find?_map_keyed (f : Nat × NodeData → Nat × NodeData)
    (hf : ∀ p, (f p).1 = p.1) (n : Nat) :
    ∀ g : Graph, (g.map f).find? (fun p => p.1 == n) = (g.find? (fun p => p.1 == n)).map f
  | [] => rfl
  | p :: rest => by
    rw [List.map_cons]
    by_cases hpa : (p.1 == n) = true
    · have hfa : ((f p).1 == n) = true := by rw [hf p]; exact hpa
      rw [@List.find?_cons_of_pos _ (fun q => q.1 == n) (f p) (rest.map f) hfa,
        @List.find?_cons_of_pos _ (fun q => q.1 == n) p rest hpa]
      rfl
    · have hfa : ¬(((f p).1 == n) = true) := by rw [hf p]; exact hpa
      rw [@List.find?_cons_of_neg _ (fun q => q.1 == n) (f p) (rest.map f) hfa,
        @List.find?_cons_of_neg _ (fun q => q.1 == n) p rest hpa]
      exact find?_map_keyed f hf n rest

theorem lookupNode_release (g : Graph) (robot : String) (n : Nat) :
    lookupNode (release_robot_nodes g robot).1 n =
      (lookupNode g n).map (fun nd =>
        if nd.occupied = some robot then { nd with occupied := none } else nd) := by
  unfold lookupNode release_robot_nodes
  rw [find?_map_keyed _ (fun p => by by_cases h : p.2.occupied = some robot <;> simp [h]) n g]
  rw [Option.map_map, Option.map_map]
  congr 1
  funext p
  by_cases h : p.2.occupied = some robot <;> simp [h]

theorem robot_not_empty_of_node (r : RobotHash) (cn : String)
    (h : r.current_node = some cn) : r.isEmpty = false := by
  unfold RobotHash.isEmpty
  simp only [decide_eq_false_iff_not]
  intro he
  rw [he] at h
  exact Option.noConfusion h

theorem reachN_mono_succ (g : Graph) (a : Nat) (n : Nat) :
    reachN g a n ⊆ reachN g a (n + 1) := fun x hx =>
  show x ∈ reachN g a n ++ (reachN g a n).flatMap (succs g) from
    List.mem_append_left _ hx

theorem reachN_mono (g : Graph) (a : Nat) {m n : Nat} (h : m ≤ n) :
    reachN g a m ⊆ reachN g a n := by
  induction h with
  | refl => exact fun _ h => h
  | step _ ih => exact fun x hx => reachN_mono_succ g a _ (ih hx)

theorem mem_reachN_succ_iff (g : Graph) (a b : Nat) (n : Nat) :
    b ∈ reachN g a (n + 1) ↔
      b ∈ reachN g a n ∨ ∃ w ∈ reachN g a n, b ∈ succs g w := by
  show b ∈ reachN g a n ++ (reachN g a n).flatMap (succs g) ↔ _
  simp [List.mem_append, List.mem_flatMap]

theorem self_mem_reachN (g : Graph) (a : Nat) (n : Nat) : a ∈ reachN g a n :=
  reachN_mono g a (Nat.zero_le n) (show a ∈ [a] from by simp)

theorem mem_succs (g : Graph) (w b : Nat) :
    b ∈ succs g w ↔ ∃ nd, lookupNode g w = some nd ∧
      b ∈ [nd.l, nd.r, nd.u, nd.d] ∧ b ≠ 0 ∧ isKey g b = true := by
  unfold succs
  cases h : lookupNode g w with
  | none => simp
  | some nd => simp [List.mem_filter, and_assoc]

theorem keys_of_reachN (g : Graph) (a : Nat) (ha : isKey g a = true) :
    ∀ n, ∀ x ∈ reachN g a n, isKey g x = true := by
  intro n
  induction n with
  | zero =>
    intro x hx
    have : x = a := by simpa [reachN] using hx
    exact this ▸ ha
  | succ n ih =>
    intro x hx
    rcases (mem_reachN_succ_iff g a x n).mp hx with h | ⟨w, _, hs⟩
    · exact ih x h
    · exact ((mem_succs g w x).mp hs).choose_spec.2.2.2

theorem reachN_subset_closed (g : Graph) (s : Nat) (V : List Nat) (hs : s ∈ V)
    (hcl : ∀ v ∈ V, ∀ b ∈ succs g v, b ∈ V) :
    ∀ m, ∀ x ∈ reachN g s m, x ∈ V := by
  intro m
  induction m with
  | zero =>
    intro x hx
    have : x = s := by simpa [reachN] using hx
    exact this ▸ hs
  | succ m ih =>
    intro x hx
    rcases (mem_reachN_succ_iff g s x m).mp hx with h | ⟨w, hw, hsucc⟩
    · exact ih x h
    · exact hcl w (ih w hw) x hsucc

theorem unvisited_far (g : Graph) (s cur : Nat) (P : Nat)
    (Q : List QEntry) (V : List Nat)
    (hs : s ∈ V) (hcd : IsDist g s cur (P - 1)) (hP : 1 ≤ P)
    (hED : ∀ e ∈ Q, IsDist g s e.1 (e.2.1.length - 1) ∧ 1 ≤ e.2.1.length)
    (hlb : ∀ e ∈ Q, P ≤ e.2.1.length)
    (hfr : ∀ v ∈ V, (∃ e ∈ Q, e.1 = v) ∨ (∀ b ∈ succs g v, b ∈ V) ∨ v = cur) :
    ∀ m, m + 1 ≤ P → ∀ u, u ∉ V → u ∉ reachN g s m := by
  intro m
  induction m with
  | zero =>
    intro _ u hu hmem
    have : u = s := by simpa [reachN] using hmem
    exact hu (this ▸ hs)
  | succ m' ih =>
    intro hm u hu hmem
    rcases (mem_reachN_succ_iff g s u m').mp hmem with h | ⟨w, hw, hsucc⟩
    · exact ih (by omega) u hu h
    · by_cases hwV : w ∈ V
      · rcases hfr w hwV with ⟨e, he, hew⟩ | hall | hwc
        · have hd := hED e he
          have hw' : e.1 ∈ reachN g s m' := by rw [hew]; exact hw
          have hle : e.2.1.length - 1 ≤ m' := by
            by_contra hgt
            exact (hd.1.2 m' (by omega)) hw'
          have hb := hlb e he
          have hd1 := hd.2
          omega
        · exact hu (hall _ hsucc)
        · subst hwc
          have hnlt : ¬(m' < P - 1) := fun hlt => (hcd.2 m' hlt) hw
          omega
      · exact ih (by omega) w hwV hw

theorem filter_notmem_cons_length (b : Nat) (V : List Nat) :
    ∀ (l : List Nat), l.Nodup → b ∈ l → b ∉ V →
      (l.filter (fun x => decide (x ∉ b :: V))).length + 1 =
        (l.filter (fun x => decide (x ∉ V))).length
  | [], _, hb, _ => absurd hb (by simp)
  | y :: t, hnd, hb, hbV => by
    rcases List.nodup_cons.mp hnd with ⟨hyt, hndt⟩
    by_cases hyb : y = b
    · subst hyb
      have hcong : t.filter (fun x => decide (x ∉ y :: V)) =
          t.filter (fun x => decide (x ∉ V)) := by
        apply List.filter_congr
        intro x hx
        have hxy : ¬x = y := fun he => hyt (he ▸ hx)
        simp [hxy]
      rw [List.filter_cons_of_neg (by simp),
        List.filter_cons_of_pos (by simpa using hbV), hcong, List.length_cons]
    · have hbt : b ∈ t := by
        rcases List.mem_cons.mp hb with h | h
        · exact absurd h.symm hyb
        · exact h
      by_cases hyV : y ∈ V
      · rw [List.filter_cons_of_neg (by simp [hyV]),
          List.filter_cons_of_neg (by simp [hyV])]
        exact filter_notmem_cons_length b V t hndt hbt hbV
      · rw [List.filter_cons_of_pos (by simp [hyb, hyV]),
          List.filter_cons_of_pos (by simp [hyV]),
          List.length_cons, List.length_cons]
        have := filter_notmem_cons_length b V t hndt hbt hbV
        omega

theorem isKey_mem_keys (g : Graph) (b : Nat) (hb : isKey g b = true) :
    b ∈ g.map Prod.fst := by
  unfold isKey lookupNode at hb
  cases hfind : g.find? (fun p => p.1 == b) with
  | none => rw [hfind] at hb; simp at hb
  | some p =>
    have hmem := List.mem_of_find?_eq_some hfind
    have hkey : (p.1 == b) = true :=
      @List.find?_some _ (fun q => q.1 == b) p g hfind
    have : p.1 = b := by simpa using hkey
    exact List.mem_map.mpr ⟨p, hmem, this⟩

theorem unvis_cons (g : Graph) (b : Nat) (V : List Nat)
    (hb : isKey g b = true) (hnb : b ∉ V) : unvis g (b :: V) + 1 = unvis g V := by
  unfold unvis
  exact filter_notmem_cons_length b V _ (List.nodup_dedup _)
    (List.mem_dedup.mpr (isKey_mem_keys g b hb)) hnb

theorem unvis_le (g : Graph) (V : List Nat) : unvis g V ≤ g.length := by
  unfold unvis
  calc ((g.map Prod.fst).dedup.filter (fun x => decide (x ∉ V))).length
      ≤ (g.map Prod.fst).dedup.length := List.length_filter_le _ _
    _ ≤ (g.map Prod.fst).length := (List.dedup_sublist _).length_le
    _ = g.length := List.length_map _ _

theorem pushNbr_measure (g : Graph) (path : List Nat) (dirs : List String)
    (qv : List QEntry × List Nat) (dn : String × Nat) :
    4 * unvis g (pushNbr g path dirs qv dn).2 + (pushNbr g path dirs qv dn).1.length ≤
      4 * unvis g qv.2 + qv.1.length := by
  unfold pushNbr
  split
  · rename_i hguard
    have := unvis_cons g dn.2 qv.2 hguard.2.2 hguard.2.1
    simp only [List.length_append, List.length_cons, List.length_nil]
    omega
  · exact le_rfl

theorem fold_measure (g : Graph) (path : List Nat) (dirs : List String) :
    ∀ (L : List (String × Nat)) (qv : List QEntry × List Nat),
      4 * unvis g (L.foldl (pushNbr g path dirs) qv).2 +
          (L.foldl (pushNbr g path dirs) qv).1.length ≤
        4 * unvis g qv.2 + qv.1.length
  | [], _ => le_rfl
  | dn :: L, qv =>
    le_trans (fold_measure g path dirs L (pushNbr g path dirs qv dn))
      (pushNbr_measure g path dirs qv dn)

theorem pushNbr_inv (g : Graph) (s endN cur : Nat) (nd : NodeData)
    (path : List Nat) (dirs : List String)
    (hlk : lookupNode g cur = some nd)
    (hcd : IsDist g s cur (path.length - 1)) (hp1 : 1 ≤ path.length)
    (dn : String × Nat) (hdn : dn.2 ∈ [nd.l, nd.r, nd.u, nd.d])
    (Q : List QEntry) (V : List Nat)
    (hI : MidInv g s endN cur path.length Q V) :
    MidInv g s endN cur path.length
        (pushNbr g path dirs (Q, V) dn).1 (pushNbr g path dirs (Q, V) dn).2 ∧
      V ⊆ (pushNbr g path dirs (Q, V) dn).2 ∧
      (dn.2 ≠ 0 → isKey g dn.2 = true → dn.2 ∈ (pushNbr g path dirs (Q, V) dn).2) := by
  unfold pushNbr
  split
  · rename_i hguard
    obtain ⟨hnz, hnV, hkey⟩ := hguard
    have hbsucc : dn.2 ∈ succs g cur := by
      rw [mem_succs]
      exact ⟨nd, hlk, hdn, hnz, hkey⟩
    have hmem : dn.2 ∈ reachN g s path.length := by
      have hstep : dn.2 ∈ reachN g s ((path.length - 1) + 1) :=
        (mem_reachN_succ_iff g s dn.2 _).mpr (Or.inr ⟨cur, hcd.1, hbsucc⟩)
      rwa [show path.length - 1 + 1 = path.length from by omega] at hstep
    have hmin : ∀ m < path.length, dn.2 ∉ reachN g s m := fun m hm =>
      unvisited_far g s cur path.length Q V hI.startMem hcd hp1 hI.entDist
        (fun e he => (hI.bounds e he).1) hI.frontier m (by omega) dn.2 hnV
    refine ⟨⟨?_, ?_, ?_, ?_, ?_, ?_, ?_, ?_, ?_, ?_, ?_⟩,
      fun x hx => List.mem_cons_of_mem _ hx,
      fun _ _ => List.mem_cons_self _ _⟩
    · exact List.mem_cons_of_mem _ hI.startMem
    · intro v hv
      rcases List.mem_cons.mp hv with h | h
      · exact h ▸ hkey
      · exact hI.keysV v h
    · intro e he
      rcases List.mem_append.mp he with h | h
      · exact hI.entKey e h
      · have he' : e = (dn.2, path ++ [dn.2], dirs ++ [dn.1]) := by simpa using h
        rw [he']
        exact hkey
    · intro e he
      rcases List.mem_append.mp he with h | h
      · exact List.mem_cons_of_mem _ (hI.entMem e h)
      · have he' : e = (dn.2, path ++ [dn.2], dirs ++ [dn.1]) := by simpa using h
        rw [he']
        exact List.mem_cons_self _ _
    · intro e he
      rcases List.mem_append.mp he with h | h
      · exact hI.entDist e h
      · have he' : e = (dn.2, path ++ [dn.2], dirs ++ [dn.1]) := by simpa using h
        rw [he']
        constructor
        · rw [show ((dn.2, path ++ [dn.2], dirs ++ [dn.1]) : QEntry).2.1.length - 1 =
            path.length from by simp]
          exact ⟨hmem, hmin⟩
        · simp
    · rw [List.pairwise_append]
      refine ⟨hI.sorted, List.pairwise_singleton _ _, ?_⟩
      intro e he e' he'
      have he'' : e' = (dn.2, path ++ [dn.2], dirs ++ [dn.1]) := by simpa using he'
      rw [he'']
      have hb := (hI.bounds e he).2
      simp only [List.length_append, List.length_cons, List.length_nil]
      omega
    · intro e he
      rcases List.mem_append.mp he with h | h
      · exact hI.bounds e h
      · have he' : e = (dn.2, path ++ [dn.2], dirs ++ [dn.1]) := by simpa using h
        rw [he']
        simp only [List.length_append, List.length_cons, List.length_nil]
        omega
    · intro v hv
      rcases List.mem_cons.mp hv with h | h
      · left
        exact ⟨(dn.2, path ++ [dn.2], dirs ++ [dn.1]), by simp, h.symm⟩
      · rcases hI.frontier v h with ⟨e, he, hev⟩ | hall | hc
        · exact Or.inl ⟨e, List.mem_append_left _ he, hev⟩
        · exact Or.inr (Or.inl fun b hb => List.mem_cons_of_mem _ (hall b hb))
        · exact Or.inr (Or.inr hc)
    · intro hend
      rcases List.mem_cons.mp hend with h | h
      · exact ⟨(dn.2, path ++ [dn.2], dirs ++ [dn.1]), by simp, h.symm⟩
      · obtain ⟨e, he, hev⟩ := hI.endQ h
        exact ⟨e, List.mem_append_left _ he, hev⟩
    · rw [List.map_append]
      rw [List.nodup_append]
      refine ⟨hI.nodupQ, by simp, ?_⟩
      intro x hx
      simp only [List.map_cons, List.map_nil, List.mem_singleton]
      intro hxb
      obtain ⟨e, he, hex⟩ := List.mem_map.mp hx
      have : e.1 ∈ V := hI.entMem e he
      rw [hex, hxb] at this
      exact hnV this
    · exact List.mem_cons_of_mem _ hI.curV
  · rename_i hguard
    refine ⟨hI, fun _ hx => hx, ?_⟩
    intro hnz hkey
    by_cases hv : dn.2 ∈ V
    · exact hv
    · exact absurd ⟨hnz, hv, hkey⟩ hguard

theorem fold_pushNbr_inv (g : Graph) (s endN cur : Nat) (nd : NodeData)
    (path : List Nat) (dirs : List String)
    (hlk : lookupNode g cur = some nd)
    (hcd : IsDist g s cur (path.length - 1)) (hp1 : 1 ≤ path.length) :
    ∀ (L : List (String × Nat)) (Q : List QEntry) (V : List Nat),
      (∀ dn ∈ L, dn.2 ∈ [nd.l, nd.r, nd.u, nd.d]) →
      MidInv g s endN cur path.length Q V →
      MidInv g s endN cur path.length
          (L.foldl (pushNbr g path dirs) (Q, V)).1
          (L.foldl (pushNbr g path dirs) (Q, V)).2 ∧
        V ⊆ (L.foldl (pushNbr g path dirs) (Q, V)).2 ∧
        ∀ dn ∈ L, dn.2 ≠ 0 → isKey g dn.2 = true →
          dn.2 ∈ (L.foldl (pushNbr g path dirs) (Q, V)).2
  | [], Q, V, _, hI => ⟨hI, fun _ hx => hx, by simp⟩
  | dn :: L, Q, V, hL, hI => by
    obtain ⟨hI1, hV1, hP1⟩ := pushNbr_inv g s endN cur nd path dirs hlk hcd hp1 dn
      (hL dn (by simp)) Q V hI
    obtain ⟨hI2, hV2, hP2⟩ := fold_pushNbr_inv g s endN cur nd path dirs hlk hcd hp1
      L (pushNbr g path dirs (Q, V) dn).1 (pushNbr g path dirs (Q, V) dn).2
      (fun dn' h => hL dn' (List.mem_cons_of_mem _ h)) hI1
    refine ⟨hI2, fun x hx => hV2 (hV1 hx), ?_⟩
    intro dn' hdn' hnz hkey
    rcases List.mem_cons.mp hdn' with h | h
    · subst h
      exact hV2 (hP1 hnz hkey)
    · exact hP2 dn' h hnz hkey

theorem bfsLoopF_correct (g : Graph) (s endN : Nat) :
    ∀ (fuel : Nat) (Q : List QEntry) (V : List Nat),
      BfsInv g s endN Q V →
      4 * unvis g V + Q.length < fuel →
      ∃ r, bfsLoopF g endN fuel Q V = some r ∧
        ((∃ n, IsDist g s endN n ∧ r.1.length = n + 1) ∨
          (r = ([], []) ∧ ¬Reaches g s endN))
  | 0, Q, V => fun _ hm => absurd hm (by omega)
  | fuel + 1, [], V => fun inv _ => by
    refine ⟨([], []), rfl, Or.inr ⟨rfl, ?_⟩⟩
    rintro ⟨n, hn⟩
    have hclosed : ∀ v ∈ V, ∀ b ∈ succs g v, b ∈ V := by
      intro v hv
      rcases inv.frontier v hv with ⟨e, he, _⟩ | hall
      · exact absurd he (by simp)
      · exact hall
    obtain ⟨e, he, _⟩ :=
      inv.endQ (reachN_subset_closed g s V inv.startMem hclosed n endN hn)
    exact absurd he (by simp)
  | fuel + 1, (cur, path, dirs) :: rest, V => fun inv hm => by
    by_cases hend : cur = endN
    · subst hend
      refine ⟨(path, dirs), by simp [bfsLoopF], Or.inl ⟨path.length - 1, ?_, ?_⟩⟩
      · exact (inv.entDist (cur, path, dirs) (by simp)).1
      · have h1 : 1 ≤ path.length := (inv.entDist (cur, path, dirs) (by simp)).2
        show path.length = path.length - 1 + 1
        omega
    · cases hlk : lookupNode g cur with
      | none =>
        have hk := inv.entKey (cur, path, dirs) (by simp)
        rw [show isKey g cur = false from by simp [isKey, hlk]] at hk
        exact absurd hk (by simp)
      | some nd =>
        have hhd := inv.entDist (cur, path, dirs) (by simp)
        have hcd : IsDist g s cur (path.length - 1) := hhd.1
        have hp1 : 1 ≤ path.length := hhd.2
        have hmid : MidInv g s endN cur path.length rest V :=
          { startMem := inv.startMem
            keysV := inv.keysV
            entKey := fun e he => inv.entKey e (List.mem_cons_of_mem _ he)
            entMem := fun e he => inv.entMem e (List.mem_cons_of_mem _ he)
            entDist := fun e he => inv.entDist e (List.mem_cons_of_mem _ he)
            sorted := (List.pairwise_cons.mp inv.sorted).2
            bounds := fun e he => ⟨(List.pairwise_cons.mp inv.sorted).1 e he,
              inv.twoLevel (cur, path, dirs) (by simp) e (List.mem_cons_of_mem _ he)⟩
            frontier := fun v hv => by
              rcases inv.frontier v hv with ⟨e, he, hev⟩ | hall
              · rcases List.mem_cons.mp he with h | h
                · right; right; rw [← hev, h]
                · exact Or.inl ⟨e, h, hev⟩
              · exact Or.inr (Or.inl hall)
            endQ := fun hend' => by
              obtain ⟨e, he, hev⟩ := inv.endQ hend'
              rcases List.mem_cons.mp he with h | h
              · rw [h] at hev
                exact absurd hev hend
              · exact ⟨e, h, hev⟩
            nodupQ := (List.nodup_cons.mp inv.nodupQ).2
            curV := inv.entMem (cur, path, dirs) (by simp) }
        have hL : ∀ dn ∈ neighborsOf nd, dn.2 ∈ [nd.l, nd.r, nd.u, nd.d] := by
          intro dn hdn
          rcases (by simpa [neighborsOf] using hdn :
            dn = ("l", nd.l) ∨ dn = ("r", nd.r) ∨ dn = ("u", nd.u) ∨ dn = ("d", nd.d))
            with rfl | rfl | rfl | rfl <;> simp
        obtain ⟨hI', hV', hP'⟩ := fold_pushNbr_inv g s endN cur nd path dirs hlk hcd hp1
          (neighborsOf nd) rest V hL hmid
        have hinv' : BfsInv g s endN
            ((neighborsOf nd).foldl (pushNbr g path dirs) (rest, V)).1
            ((neighborsOf nd).foldl (pushNbr g path dirs) (rest, V)).2 :=
          { startMem := hI'.startMem
            keysV := hI'.keysV
            entKey := hI'.entKey
            entMem := hI'.entMem
            entDist := hI'.entDist
            sorted := hI'.sorted
            twoLevel := fun e he e' he' => by
              have h1 := (hI'.bounds e he).1
              have h2 := (hI'.bounds e' he').2
              omega
            frontier := fun v hv => by
              rcases hI'.frontier v hv with h | h | hc
              · exact Or.inl h
              · exact Or.inr h
              · subst hc
                right
                intro b hb
                rw [mem_succs] at hb
                obtain ⟨nd', hnd', hmem4, hnz, hkey⟩ := hb
                rw [hlk] at hnd'
                injection hnd' with hnd'
                subst hnd'
                have hex : ∃ dn ∈ neighborsOf nd, dn.2 = b := by
                  rcases (by simpa using hmem4 :
                      b = nd.l ∨ b = nd.r ∨ b = nd.u ∨ b = nd.d) with h | h | h | h <;>
                    subst h
                  · exact ⟨("l", nd.l), by simp [neighborsOf], rfl⟩
                  · exact ⟨("r", nd.r), by simp [neighborsOf], rfl⟩
                  · exact ⟨("u", nd.u), by simp [neighborsOf], rfl⟩
                  · exact ⟨("d", nd.d), by simp [neighborsOf], rfl⟩
                obtain ⟨dn, hdn, hdnb⟩ := hex
                exact hdnb ▸ hP' dn hdn (by rw [hdnb]; exact hnz) (by rw [hdnb]; exact hkey)
            endQ := hI'.endQ
            nodupQ := hI'.nodupQ }
        have hmeas : 4 * unvis g ((neighborsOf nd).foldl (pushNbr g path dirs) (rest, V)).2 +
            ((neighborsOf nd).foldl (pushNbr g path dirs) (rest, V)).1.length < fuel := by
          have hf : 4 * unvis g ((neighborsOf nd).foldl (pushNbr g path dirs) (rest, V)).2 +
              ((neighborsOf nd).foldl (pushNbr g path dirs) (rest, V)).1.length ≤
                4 * unvis g V + rest.length :=
            fold_measure g path dirs (neighborsOf nd) (rest, V)
          simp only [List.length_cons] at hm
          omega
        obtain ⟨r, hreq, hcase⟩ := bfsLoopF_correct g s endN fuel
          ((neighborsOf nd).foldl (pushNbr g path dirs) (rest, V)).1
          ((neighborsOf nd).foldl (pushNbr g path dirs) (rest, V)).2 hinv' hmeas
        refine ⟨r, ?_, hcase⟩
        rw [show bfsLoopF g endN (fuel + 1) ((cur, path, dirs) :: rest) V =
          (if cur = endN then some (path, dirs) else
            match lookupNode g cur with
            | none => some ([], [])
            | some nd =>
              let qv := (neighborsOf nd).foldl (pushNbr g path dirs) (rest, V)
              bfsLoopF g endN fuel qv.1 qv.2) from rfl]
        rw [if_neg hend, hlk]
        exact hreq

/-! ## Claim theorems -/

/-- C6 (counterexample to the claim): on the voltage `15.0` with
`battery_charging_state = 1`, `_calculate_battery_percent` does NOT store
47.  The charging correction yields `v = 14.895` and
`(v - 13.5)/3*100 = 46.5`, which Python's `round` — round half to even,
and in IEEE-double arithmetic the intermediate is in fact slightly below
46.5 — takes to 46, not to the claimed 47. -/
theorem battery_15_charging_ne_47 : calculate_battery_percent 15 1 ≠ 47 := by
  norm_num [calculate_battery_percent, roundHalfEven]

/-- C6 (amended claim): the battery conversion maps input voltage "15.0"
with `battery_charging_state = 1` to the stored percentage 46: the
charging correction yields `v = 15 - (16.5-15)*0.07 = 14.895` and the
percentage is `round((14.895-13.5)/3*100) = round(46.5) = 46` under
Python's round-half-to-even, clamped to `[0, 100]`. -/
theorem battery_15_charging_eq_46 : calculate_battery_percent 15 1 = 46 := by
  norm_num [calculate_battery_percent, roundHalfEven]

/-- C8: for every non-empty `nodes` with `dirs` non-empty and
`len(dirs) = len(nodes) - 1`, the string `format_path` produces is the
`"{end}!"` prefix followed by exactly the segments
`"{nodes[i]},{dirs[i]}/"` for `0 ≤ i ≤ len(nodes) - 2`: the final node is
emitted only inside the `"{end}!"` prefix, never in the body. -/
theorem format_path_omits_final (endN : Nat) (nodes : List Nat) (dirs : List String)
    (h1 : nodes ≠ []) (h2 : dirs ≠ []) (h3 : dirs.length = nodes.length - 1) :
    format_path endN (nodes.headD 0) nodes dirs = s!"{endN}!" ++ pathBody nodes dirs := by
  obtain ⟨n0, tl, rfl⟩ : ∃ n0 tl, nodes = n0 :: tl := by
    cases nodes with
    | nil => exact absurd rfl h1
    | cons a b => exact ⟨a, b, rfl⟩
  cases tl with
  | nil =>
    cases dirs with
    | nil => exact absurd rfl h2
    | cons e el => simp at h3
  | cons t1 tl' =>
    unfold format_path pathBody
    rw [format_path_foldl]
    rw [show (n0 :: t1 :: tl').length - 1 - 1 = tl'.length from rfl,
      show (n0 :: t1 :: tl').length - 1 = tl'.length + 1 from rfl,
      strJoin_range_shift, ← strAppend_assoc]
    congr 1
    apply String.ext
    simp [String.data_append, toString_string]

/-- Witness for `format_path_omits_final` at `nodes = [1,2,3]`,
`dirs = ["l","r"]`. -/
theorem format_path_omits_final_witness :
    format_path 3 1 [1, 2, 3] ["l", "r"] = "3!" ++ pathBody [1, 2, 3] ["l", "r"] := by
  have h := format_path_omits_final 3 [1, 2, 3] ["l", "r"]
    (by decide) (by decide) (by decide)
  simpa using h

/-- C2: `cut_path` scans from index 1 — the start node is never rejected —
and stops at the first index whose node is missing from the table or
occupied by another robot, returning exactly the prefixes `nodes[:i]` and
`dirs[:i]`; when no index blocks, the input comes back unchanged. -/
theorem cut_path_first_block (g : Graph) (nodes : List Nat) (dirs : List String)
    (robot : String) (h : dirs.length = nodes.length - 1) :
    ((∀ i, 1 ≤ i → i < nodes.length → blockedAt g robot (nodes.getD i 0) = false) →
        cut_path g nodes dirs robot = (nodes, dirs))
    ∧ (∀ i, 1 ≤ i → i < nodes.length → blockedAt g robot (nodes.getD i 0) = true →
        (∀ j, 1 ≤ j → j < i → blockedAt g robot (nodes.getD j 0) = false) →
        cut_path g nodes dirs robot = (nodes.take i, dirs.take i)) := by
  cases nodes with
  | nil =>
    constructor
    · intro _
      have hd : dirs = [] := by
        simpa using List.length_eq_zero.mp (by simpa using h)
      subst hd
      rfl
    · intro i h1 h2
      exact absurd h2 (by simp)
  | cons n0 tl =>
    have hd : dirs.length = tl.length := by simpa using h
    constructor
    · intro hall
      have hnone : cutIndexAux g robot tl 1 = none :=
        cutIndexAux_eq_none g robot tl 1 (fun j hj =>
          hall (j + 1) (Nat.succ_le_succ (Nat.zero_le j)) (by simpa using hj))
      show cut_path g (n0 :: tl) dirs robot = _
      unfold cut_path
      rw [if_neg (by simp)]
      show ((n0 :: tl).take ((cutIndexAux g robot ((n0 :: tl).drop 1) 1).getD
        (n0 :: tl).length), dirs.take ((cutIndexAux g robot ((n0 :: tl).drop 1) 1).getD
        (n0 :: tl).length)) = _
      rw [show (n0 :: tl).drop 1 = tl from rfl, hnone]
      simp only [Option.getD_none]
      rw [List.take_length]
      rw [List.take_of_length_le (by rw [hd]; simp)]
    · intro i h1 h2 hb hmin
      obtain ⟨i0, rfl⟩ : ∃ i0, i = i0 + 1 := ⟨i - 1, by omega⟩
      have hsome : cutIndexAux g robot tl 1 = some (1 + i0) :=
        cutIndexAux_eq_some g robot tl 1 i0 (by simpa using h2) (by simpa using hb)
          (fun j hj =>
            hmin (j + 1) (Nat.succ_le_succ (Nat.zero_le j)) (by omega))
      show cut_path g (n0 :: tl) dirs robot = _
      unfold cut_path
      rw [if_neg (by simp)]
      show ((n0 :: tl).take ((cutIndexAux g robot ((n0 :: tl).drop 1) 1).getD
        (n0 :: tl).length), dirs.take ((cutIndexAux g robot ((n0 :: tl).drop 1) 1).getD
        (n0 :: tl).length)) = _
      rw [show (n0 :: tl).drop 1 = tl from rfl, hsome]
      simp only [Option.getD_some]
      rw [show 1 + i0 = i0 + 1 from Nat.add_comm 1 i0]

/-- Witness for `cut_path_first_block`: on a three-node line whose node 3
is occupied by `r2`, robot `r1`'s path `[1,2,3]` is cut to `[1,2]`. -/
theorem cut_path_first_block_witness :
    cut_path lineWithBlock [1, 2, 3] ["l", "l"] "r1" = ([1, 2], ["l", "l"]) := by
  have h := (cut_path_first_block lineWithBlock [1, 2, 3] ["l", "l"] "r1" (by decide)).2
    2 (by decide) (by decide) (by decide)
    (fun j hj1 hj2 => by
      have hj : j = 1 := by omega
      subst hj
      decide)
  exact h.trans (by decide)

/-- C4: on every position update the derived status follows the charging
rules: at the charging sub-position `"1-0"` the status is `CHARGING` when
the stored charging flag is 1 and `WAITING` otherwise; elsewhere it is
`RETURN` when the effective final node — the one passed with the update,
else the stored one — is `"1-0"`, and `WORKING` otherwise. -/
theorem update_position_status (w : World) (map robot cn : String) (fn : Option String)
    (now : Int) (h1 : validNodeStr cn = true) (h2 : w.robot.wf = true) :
    (update_position w map robot cn fn now).robot.status =
      some (if cn = "1-0" then
              if w.robot.charging_state.getD 0 = 1 then "CHARGING" else "WAITING"
            else
              if (match fn with
                  | some f => some f
                  | none => w.robot.final_node) = some "1-0"
              then "RETURN" else "WORKING") := by
  unfold update_position
  rw [(publish_state_change_frame _ map robot).1, (update_operation_state_frame _ now).1]
  cases fn <;> rfl

/-- Witness for `update_position_status`: a fresh robot updated to node 5
with final node 10 becomes `WORKING`. -/
theorem update_position_status_witness :
    (update_position World.init "smartfarm_x" "r1" "5" (some "10") 0).robot.status =
      some "WORKING" := by
  have h := update_position_status World.init "smartfarm_x" "r1" "5" (some "10") 0
    (by decide) (by decide)
  exact h.trans (by decide)

/-- C10: `update_battery` writes only the battery, charging, `updated_at`
and identity fields of the robot record; `current_node`, `final_node` and
the cumulative `node_count` are untouched, and the status field is
recomputed — from the charging flag — exactly when the stored
`current_node` is `"1-0"`. -/
theorem update_battery_writes (w : World) (map robot : String) (battery charging now : Int) :
    ((update_battery w map robot battery charging now).robot.battery_state = some battery ∧
      (update_battery w map robot battery charging now).robot.charging_state = some charging ∧
      (update_battery w map robot battery charging now).robot.updated_at = some now ∧
      (update_battery w map robot battery charging now).robot.map_name = some map ∧
      (update_battery w map robot battery charging now).robot.track_no = some "1" ∧
      (update_battery w map robot battery charging now).robot.robot_id = some robot) ∧
    (update_battery w map robot battery charging now).robot.current_node =
      w.robot.current_node ∧
    (update_battery w map robot battery charging now).robot.final_node =
      w.robot.final_node ∧
    (update_battery w map robot battery charging now).cursor.node_count =
      w.cursor.node_count ∧
    (w.robot.current_node ≠ some "1-0" →
      (update_battery w map robot battery charging now).robot.status = w.robot.status) ∧
    (w.robot.current_node = some "1-0" →
      (update_battery w map robot battery charging now).robot.status =
        some (if charging = 1 then "CHARGING" else "WAITING")) := by
  have hC : (update_battery w map robot battery charging now).cursor.node_count =
      w.cursor.node_count := by
    unfold update_battery
    rw [(publish_state_change_frame _ map robot).2.1]
    exact (update_operation_state_frame _ now).2.1
  have hR : (update_battery w map robot battery charging now).robot =
      (if w.robot.current_node = some "1-0" then
        ({ w.robot with
            map_name := some map, track_no := some "1", robot_id := some robot,
            battery_state := some battery, charging_state := some charging,
            updated_at := some now,
            status := some (if charging = 1 then "CHARGING" else "WAITING") } : RobotHash)
      else
        { w.robot with
            map_name := some map, track_no := some "1", robot_id := some robot,
            battery_state := some battery, charging_state := some charging,
            updated_at := some now }) := by
    unfold update_battery
    rw [(publish_state_change_frame _ map robot).1, (update_operation_state_frame _ now).1]
  rw [hR]
  by_cases hc : w.robot.current_node = some "1-0" <;> simp [hc, hC]

/-- Witness for `update_battery_writes`: away from `"1-0"` a battery
update leaves the status untouched and stores the battery value. -/
theorem update_battery_writes_witness :
    awayWorld.robot.current_node ≠ some "1-0" ∧
    (update_battery awayWorld "smartfarm_x" "r1" 50 0 7).robot.status = some "WORKING" ∧
    (update_battery awayWorld "smartfarm_x" "r1" 50 0 7).robot.battery_state = some 50 := by
  have h := update_battery_writes awayWorld "smartfarm_x" "r1" 50 0 7
  exact ⟨by decide, (h.2.2.2.2.1 (by decide)).trans (by decide), h.1.1⟩

/-- C7: an arrive event sets status `DONE` with `current_node` the parsed
payload node, writes the arrive marker with a 180-second TTL, clears
`occupied_by` on exactly this robot's nodes — every other node keeps its
occupant — and acknowledges with `{"yes_or_no": "yes"}` on the per-robot
arrive topic. -/
theorem handle_arrive_effects (w : World) (map robot payload : String) (now : Int)
    (hv : validNodeStr payload = true) :
    (handle_arrive w map robot payload now).robot.status = some "DONE" ∧
    (handle_arrive w map robot payload now).robot.current_node =
      some (toString (parseNode payload).1) ∧
    (handle_arrive w map robot payload now).arriveVal =
      some (toString (parseNode payload).1) ∧
    (handle_arrive w map robot payload now).arriveTTL = some 180 ∧
    (∀ n, lookupNode (handle_arrive w map robot payload now).graph n =
      (lookupNode w.graph n).map (fun nd =>
        if nd.occupied = some robot then { nd with occupied := none } else nd)) ∧
    (handle_arrive w map robot payload now).mqttPub =
      w.mqttPub ++ [(s!"{map}/{robot}/server/arrive", "\x7b\"yes_or_no\": \"yes\"\x7d")] := by
  have hG : (update_status w map robot "DONE"
      (some (toString (parseNode payload).1)) now).graph = w.graph := by
    unfold update_status
    rw [(publish_state_change_frame _ map robot).2.2.1]
    exact (update_operation_state_frame _ now).2.2.1
  have hM : (update_status w map robot "DONE"
      (some (toString (parseNode payload).1)) now).mqttPub = w.mqttPub := by
    unfold update_status
    rw [(publish_state_change_frame _ map robot).2.2.2.2.2.1]
    exact (update_operation_state_frame _ now).2.2.2.2.2.1
  have hU : (update_status w map robot "DONE"
      (some (toString (parseNode payload).1)) now).robot =
      { w.robot with
          map_name := some map, track_no := some "1", robot_id := some robot,
          status := some "DONE", updated_at := some now,
          current_node := some (toString (parseNode payload).1) } := by
    unfold update_status
    rw [(publish_state_change_frame _ map robot).1, (update_operation_state_frame _ now).1]
  refine ⟨?_, ?_, rfl, rfl, ?_, ?_⟩
  · show (update_status w map robot "DONE"
      (some (toString (parseNode payload).1)) now).robot.status = some "DONE"
    rw [hU]
  · show (update_status w map robot "DONE"
      (some (toString (parseNode payload).1)) now).robot.current_node =
      some (toString (parseNode payload).1)
    rw [hU]
  · intro n
    show lookupNode (release_robot_nodes (update_status w map robot "DONE"
      (some (toString (parseNode payload).1)) now).graph robot).1 n = _
    rw [hG]
    exact lookupNode_release w.graph robot n
  · show (update_status w map robot "DONE"
      (some (toString (parseNode payload).1)) now).mqttPub ++
        [(s!"{map}/{robot}/server/arrive", "\x7b\"yes_or_no\": \"yes\"\x7d")] = _
    rw [hM]

/-- Witness for `handle_arrive_effects`: on the blocked three-node line,
robot `r2` arriving at node 8 goes `DONE` and node 3 is released. -/
theorem handle_arrive_effects_witness :
    (handle_arrive midSubWorld "smartfarm_x" "r2" "8" 0).robot.status = some "DONE" ∧
    lookupNode (handle_arrive midSubWorld "smartfarm_x" "r2" "8" 0).graph 3 =
      some ⟨0, 0, 0, 0, none⟩ := by
  have h := handle_arrive_effects midSubWorld "smartfarm_x" "r2" "8" 0 (by decide)
  exact ⟨h.1, (h.2.2.2.2.1 3).trans (by decide)⟩

/-- C9: the operator-bus next command publishes on the button topic the
position computed from the stored `current_node` `n-sub`: `"{n}-1"` at
sub 0 when node `n` has a non-zero `l` neighbour (nothing otherwise),
`"{n}-{sub+1}"` for `0 < sub < 4`, and `"{lneighbour}-0"` at sub 4 when
the `l` neighbour is non-zero (nothing otherwise). -/
theorem next_command_effects (w : World) (map robot cn : String)
    (hcn : w.robot.current_node = some cn) (hv : validNodeStr cn = true) :
    ((handle_next_command w map robot).mqttPub =
      w.mqttPub ++ (match calculate_next_position w.graph cn with
        | some p => [(s!"{map}/{robot}/server/button", s!"\x7b\"final_node\": \"{p}\"\x7d")]
        | none => [])) ∧
    (∀ nid sub, parseNodeSub cn = (nid, sub) →
      (sub = 0 → calculate_next_position w.graph cn =
        (match lookupNode w.graph nid with
         | some nd => if nd.l ≠ 0 then some s!"{nid}-1" else none
         | none => none)) ∧
      (0 < sub → sub < 4 →
        calculate_next_position w.graph cn = (let s1 := sub + 1; some s!"{nid}-{s1}")) ∧
      (sub = 4 → calculate_next_position w.graph cn =
        (match lookupNode w.graph nid with
         | some nd => if nd.l ≠ 0 then (let ln := nd.l; some s!"{ln}-0") else none
         | none => none))) := by
  have hne := robot_not_empty_of_node w.robot cn hcn
  constructor
  · have hH : handle_next_command w map robot =
        (match calculate_next_position w.graph cn with
         | none => w
         | some p =>
           { w with mqttPub := w.mqttPub ++
               [(s!"{map}/{robot}/server/button", s!"\x7b\"final_node\": \"{p}\"\x7d")] }) := by
      unfold handle_next_command
      rw [if_neg (by simp [hne, hcn])]
      rw [hcn]
      rfl
    rw [hH]
    cases calculate_next_position w.graph cn
    · simp
    · simp
  · intro nid sub hp
    refine ⟨?_, ?_, ?_⟩
    · intro h0
      simp only [calculate_next_position, hp, h0, if_pos]
      cases lookupNode w.graph nid with
      | none => rfl
      | some nd => by_cases hz : nd.l = 0 <;> simp [hz]
    · intro hgt hlt
      simp only [calculate_next_position, hp]
      rw [if_neg (by omega), if_pos hlt]
    · intro h4
      simp only [calculate_next_position, hp, h4]
      rw [if_neg (by omega), if_neg (by omega)]
      cases lookupNode w.graph nid with
      | none => rfl
      | some nd => by_cases hz : nd.l = 0 <;> simp [hz]

/-- Witness for `next_command_effects`: from stored `"5-2"` the next
command publishes `final_node = "5-3"`. -/
theorem next_command_effects_witness :
    (handle_next_command midSubWorld "smartfarm_x" "r1").mqttPub =
      [("smartfarm_x/r1/server/button", "\x7b\"final_node\": \"5-3\"\x7d")] := by
  have h := (next_command_effects midSubWorld "smartfarm_x" "r1" "5-2"
    (by decide) (by decide)).1
  exact h.trans (by decide)

theorem middleDays_cons (d : Int) (k : Nat) :
    middleDays d (k + 1) = (d, dayUs - 1) :: middleDays (d + 1) k := by
  unfold middleDays
  rw [List.range_succ_eq_map, List.map_cons, List.map_map]
  congr 1
  · simp
  · apply List.map_congr_left
    intro i _
    simp [Function.comp]
    push_cast
    ring

theorem splitLoop_tail (ended D1 : Int) :
    ∀ (k : Nat) (d : Int), d ≤ D1 → (D1 - d).toNat = k →
      splitLoop ended D1 (k + 1) d (startOfDay d) =
        middleDays d k ++ [(D1, ended - startOfDay D1)]
  | 0, d, hle, hk => by
    have hd : d = D1 := by omega
    subst hd
    show (if d ≤ d then
      (d, (if d = d then ended else endOfDay d) - startOfDay d) ::
        splitLoop ended d 0 (d + 1) (startOfDay (d + 1))
      else []) = _
    rw [if_pos le_rfl, if_pos rfl]
    simp [middleDays, splitLoop]
  | k + 1, d, hle, hk => by
    have hlt : d < D1 := by omega
    show (if d ≤ D1 then
      (d, (if d = D1 then ended else endOfDay d) - startOfDay d) ::
        splitLoop ended D1 (k + 1) (d + 1) (startOfDay (d + 1))
      else []) = _
    rw [if_pos hle, if_neg (by omega)]
    rw [splitLoop_tail ended D1 k (d + 1) (by omega) (by omega)]
    rw [middleDays_cons]
    rw [show endOfDay d - startOfDay d = dayUs - 1 from by
      unfold endOfDay startOfDay; ring]
    rfl

/-- C5 (counterexample to the claim): a `working` interval from
2024-05-10T23:59:40 (epoch day 19853) to 2024-05-11T00:00:20 credits the
2024-05-10 bucket with 19999999 µs — 19.999999 s, not the claimed exact
20 s: the source ends each non-final day at `datetime.max.time()`, i.e.
23:59:59.999999, losing one microsecond per midnight boundary. -/
theorem daily_split_counterexample :
    (split_and_add_duration World.init "working"
        (19853 * dayUs + 86380000000) (19854 * dayUs + 20000000)).stats 19853 "working"
      = 19999999 ∧ (19999999 : Int) ≠ 20 * 1000000 := by
  constructor
  · decide
  · decide

/-- C5 (amended claim): closing an interval that spans midnights splits
it at each boundary, but each non-final date — the start date and every
intermediate whole day — is credited one microsecond less than the time
elapsed within it (the source's day end is 23:59:59.999999); only the
final date is credited exactly the time from midnight to the close.  In
the example, 2024-05-10 gains exactly 19.999999 s and 2024-05-11 exactly
20 s of `working`. -/
theorem split_segments_amended (started ended : Int)
    (h2 : dateOf started < dateOf ended) :
    splitSegments started ended =
      (dateOf started, endOfDay (dateOf started) - started) ::
        (middleDays (dateOf started + 1) (dateOf ended - dateOf started - 1).toNat ++
          [(dateOf ended, ended - startOfDay (dateOf ended))]) := by
  unfold splitSegments
  rw [if_neg (by omega)]
  rw [show (dateOf ended - dateOf started).toNat =
    ((dateOf ended - dateOf started - 1).toNat) + 1 from by omega]
  rw [show splitLoop ended (dateOf ended)
      ((dateOf ended - dateOf started - 1).toNat + 1 + 1) (dateOf started) started =
      (if dateOf started ≤ dateOf ended then
        (dateOf started,
          (if dateOf started = dateOf ended then ended else endOfDay (dateOf started))
            - started) ::
          splitLoop ended (dateOf ended) ((dateOf ended - dateOf started - 1).toNat + 1)
            (dateOf started + 1) (startOfDay (dateOf started + 1))
      else []) from rfl]
  rw [if_pos (by omega), if_neg (by omega)]
  rw [splitLoop_tail ended (dateOf ended) _ (dateOf started + 1) (by omega) (by omega)]

/-- Witness for `split_segments_amended` on the claim's own interval:
19999999 µs to 2024-05-10 and 20000000 µs to 2024-05-11, both via the
segment decomposition and in the accumulated buckets. -/
theorem split_segments_amended_witness :
    splitSegments (19853 * dayUs + 86380000000) (19854 * dayUs + 20000000) =
      [(19853, 19999999), (19854, 20000000)] ∧
    (split_and_add_duration World.init "working"
        (19853 * dayUs + 86380000000) (19854 * dayUs + 20000000)).stats 19854 "working"
      = 20000000 := by
  constructor
  · exact (split_segments_amended (19853 * dayUs + 86380000000)
      (19854 * dayUs + 20000000) (by decide)).trans (by decide)
  · decide

/-- C3: for every node `a` known to the map, `bfs(a, a)` returns
`([a], [])`; and for every pair of known nodes with a route between them,
the returned node list has length equal to the shortest 4-neighbour
distance plus 1 (the fixed `l, r, u, d` visit order with `0`-labelled
neighbours skipped is the edge relation `succs` both the algorithm and
the distance use). -/
theorem bfs_shortest (g : Graph) (a b : Nat) (ha : isKey g a = true)
    (hr : Reaches g a b) :
    bfs g a a = ([a], []) ∧ (bfs g a b).1.length = Nat.find hr + 1 := by
  have hgne : g.isEmpty = false := by
    cases g with
    | nil => simp [isKey, lookupNode] at ha
    | cons p t => rfl
  have hkb : isKey g b = true := by
    obtain ⟨n, hn⟩ := hr
    exact keys_of_reachN g a ha n b hn
  constructor
  · unfold bfs
    rw [hgne, ha]
    simp only [Bool.false_eq_true, if_false, Bool.and_self, if_true]
    rw [show bfsLoopF g a (4 * g.length + 2) [(a, [a], [])] [a] =
      (if a = a then some ([a], []) else
        match lookupNode g a with
        | none => some ([], [])
        | some nd =>
          let qv := (neighborsOf nd).foldl (pushNbr g [a] []) ([], [a])
          bfsLoopF g a (4 * g.length + 1) qv.1 qv.2) from rfl]
    rw [if_pos rfl]
    rfl
  · have hinv : BfsInv g a b [(a, [a], [])] [a] :=
      { startMem := by simp
        keysV := fun v hv => by
          have hv' : v = a := by simpa using hv
          exact hv' ▸ ha
        entKey := fun e he => by
          have he' : e = (a, [a], []) := by simpa using he
          rw [he']
          exact ha
        entMem := fun e he => by
          have he' : e = (a, [a], []) := by simpa using he
          rw [he']
          simp
        entDist := fun e he => by
          have he' : e = (a, [a], []) := by simpa using he
          rw [he']
          refine ⟨⟨?_, ?_⟩, by simp⟩
          · show a ∈ reachN g a (([a] : List Nat).length - 1)
            simp [reachN]
          · intro m hm
            exact absurd hm (by simp)
        sorted := List.pairwise_singleton _ _
        twoLevel := fun e he e' he' => by
          have h1 : e = (a, [a], []) := by simpa using he
          have h2 : e' = (a, [a], []) := by simpa using he'
          rw [h1, h2]
          simp
        frontier := fun v hv => Or.inl ⟨(a, [a], []), by simp,
          by simpa using (by simpa using hv : v = a).symm⟩
        endQ := fun hend => ⟨(a, [a], []), by simp,
          by simpa using (by simpa using hend : b = a).symm⟩
        nodupQ := by simp }
    have hmeas : 4 * unvis g [a] + ([(a, [a], [])] : List QEntry).length <
        4 * g.length + 2 := by
      have hle := unvis_le g [a]
      simp only [List.length_cons, List.length_nil]
      omega
    obtain ⟨r, hreq, hcase⟩ := bfsLoopF_correct g a b (4 * g.length + 2)
      [(a, [a], [])] [a] hinv hmeas
    have hbfs : bfs g a b = r := by
      unfold bfs
      rw [hgne, ha, hkb]
      simp only [Bool.false_eq_true, if_false, Bool.and_self, if_true]
      rw [hreq]
      rfl
    rw [hbfs]
    rcases hcase with ⟨n, hdist, hlen⟩ | ⟨_, hnr⟩
    · rw [hlen]
      congr 1
      symm
      rw [Nat.find_eq_iff hr]
      exact ⟨hdist.1, fun m hm => hdist.2 m hm⟩
    · exact absurd hr hnr

/-- Witness for `bfs_shortest` on the blocked three-node line (occupancy
does not affect BFS): `bfs 1 1 = ([1], [])` and the route `1 → 2 → 3` has
shortest distance 2, so the path has 3 nodes. -/
theorem bfs_shortest_witness :
    bfs lineWithBlock 1 1 = ([1], []) ∧ (bfs lineWithBlock 1 3).1.length = 3 := by
  have hr : Reaches lineWithBlock 1 3 := ⟨2, by decide⟩
  have h := bfs_shortest lineWithBlock 1 3 (by decide) hr
  refine ⟨h.1, h.2.trans ?_⟩
  have hfind : Nat.find hr = 2 := by
    rw [Nat.find_eq_iff hr]
    constructor
    · decide
    · intro m hm
      interval_cases m <;> decide
  rw [hfind]

/-- C1 (evaluation of the intended behaviour behind the code bug): on the
seeded free line map, the plain path request of robot `r1` at node 5 for
`final_node = 10` would compute BFS path `[5,6,7,8,9,10]` (all `l`),
uncut, format it as exactly `"10!5,l/6,l/7,l/8,l/9,l/"`, and the position
update stores status `WORKING`.  The handler never publishes this
response: `PathCalculationService._calculate_forward_path` passes seven
arguments to the four-parameter `format_path`, raising `TypeError` after
the status write and before `_send_path_response` runs. -/
theorem plain_path_request_intended :
    bfs initNodes 5 10 = ([5, 6, 7, 8, 9, 10], ["l", "l", "l", "l", "l"]) ∧
    cut_path initNodes [5, 6, 7, 8, 9, 10] ["l", "l", "l", "l", "l"] "r1" =
      ([5, 6, 7, 8, 9, 10], ["l", "l", "l", "l", "l"]) ∧
    format_path 10 5 [5, 6, 7, 8, 9, 10] ["l", "l", "l", "l", "l"] =
      "10!5,l/6,l/7,l/8,l/9,l/" ∧
    (update_position World.init "smartfarm_x" "r1" "5" (some "10") 0).robot.status =
      some "WORKING" := by
  refine ⟨by decide, by decide, by decide, by decide⟩

end SmartFarm
